import Mathlib

/-!
Verification of the `rusttext` vocabulary core (`src/rusttext/src/word.rs` and
`src/rusttext/src/vocabulary.rs`), shallowly embedded in Lean.

Token text is modelled as its UTF-8 byte sequence (`List Nat`, each element a
byte value), since the Rust code operates on `str::bytes()` throughout.
Machine integers (`u32`, `usize`, `i32`) are modelled as `Nat`/`Int`; the one
place where 32-bit overflow is semantically relevant (`u32::wrapping_mul` in
the FNV hash) carries an explicit `% 2^32`.  Code that can panic or loop
forever is modelled with `Option`: `none` stands for panic / non-termination.
-/

namespace RustText

/-- `EntryType` from word.rs: `Word` and `Label`, with the derived `Ord`
ordering `Word < Label`. -/
inductive EntryType : Type where
  | Word : EntryType
  | Label : EntryType
deriving DecidableEq

/-- Rank realising the derived `Ord` on `EntryType` (declaration order). -/
def entryTypeRank : EntryType → Nat
  | .Word => 0
  | .Label => 1

/-- `WordEntry` from word.rs. -/
structure WordEntry : Type where
  word : List Nat
  entry_type : EntryType
  count : Nat
  subwords : List Nat
deriving DecidableEq

/-- Placeholder entry used as the `getD` default when dereferencing entry
indices; the invariant proved below shows lookups never actually fall back
to it (the Rust code would panic on an out-of-bounds index). -/
def defaultEntry : WordEntry :=
  { word := [], entry_type := .Word, count := 0, subwords := [] }

/-- `fnv_hash` from word.rs: FNV-1a over the bytes, offset basis 2166136261,
prime 16777619, with `u32` wrapping multiplication (`% 2^32`). -/
def fnv_hash (word : List Nat) : Nat :=
  word.foldl (fun h b => ((h ^^^ b) * 16777619) % 2 ^ 32) 2166136261

/-- `get_type` from word.rs: `Label` iff the text starts with the label
marker (byte-wise `starts_with`). -/
def get_type (word lp : List Nat) : EntryType :=
  if lp.isPrefixOf word then .Label else .Word

/-- `WordEntry::new` from word.rs: count starts at 1, classification by
`get_type`, subwords initially empty. -/
def WordEntry.new (word lp : List Nat) : WordEntry :=
  { word := word, entry_type := get_type word lp, count := 1, subwords := [] }

/-- The inner loop of `WordEntry::parse_subwords` for one width over a list
of byte offsets (`bytes().enumerate()` yields `0, 1, ...`): skip UTF-8
continuation bytes (`letter & 0xC0 == 0x80`), and for `i + width <=
word.len()` take the slice `&self.word[i..i+width]`.  Rust `str` range
slicing panics when the end offset is not a char boundary — neither the end
of the string nor the start byte of a character — and that panic is
modelled as `none` (the start offset `i` is always a boundary, being a
non-continuation byte). -/
def subwordsAtWidthAux (word : List Nat) (width : Nat) :
    List Nat → Option (List (List Nat))
  | [] => some []
  | i :: rest =>
    if word.getD i 0 &&& 192 = 128 then subwordsAtWidthAux word width rest
    else if i + width ≤ word.length then
      if i + width = word.length ∨ ¬(word.getD (i + width) 0 &&& 192 = 128) then
        match subwordsAtWidthAux word width rest with
        | none => none
        | some subs => some ((word.drop i).take width :: subs)
      else none
    else subwordsAtWidthAux word width rest

/-- One width of `WordEntry::parse_subwords`: scan every byte offset of the
token. -/
def subwordsAtWidth (word : List Nat) (width : Nat) : Option (List (List Nat)) :=
  subwordsAtWidthAux word width (List.range word.length)

/-- The outer width loop of `WordEntry::parse_subwords`, accumulating the
candidates in width order and propagating the slice panic. -/
def parseSubwordsAux (word : List Nat) : List Nat → Option (List (List Nat))
  | [] => some []
  | width :: rest =>
    match subwordsAtWidth word width with
    | none => none
    | some subs =>
      match parseSubwordsAux word rest with
      | none => none
      | some more => some (subs ++ more)

/-- `WordEntry::parse_subwords` from word.rs.  `min_n == 0 || max_n == 0`
returns the empty list; otherwise `min_n >= max_n` panics (`none` here);
otherwise the outer loop runs widths `min_n ..= max_n`. -/
def parse_subwords (word : List Nat) (min_n max_n : Nat) : Option (List (List Nat)) :=
  if min_n = 0 ∨ max_n = 0 then some []
  else if max_n ≤ min_n then none
  else parseSubwordsAux word (List.range' min_n (max_n + 1 - min_n))

/-- The configuration in which the slice `&self.word[i..i+width]` inside
`parse_subwords` panics: the offset `i` is scanned (not a continuation
byte), the window fits in the token, but its end is not a char boundary. -/
def windowPanics (word : List Nat) (width i : Nat) : Prop :=
  ¬(word.getD i 0 &&& 192 = 128) ∧ i + width ≤ word.length ∧
  ¬(i + width = word.length ∨ ¬(word.getD (i + width) 0 &&& 192 = 128))

/-- `WordEntry::compute_subwords` from word.rs: hash each candidate substring
with `fnv_hash` and reduce it modulo `bucket`, storing the results. -/
def WordEntry.compute_subwords (e : WordEntry) (min_n max_n bucket : Nat) :
    Option WordEntry :=
  match parse_subwords e.word min_n max_n with
  | none => none
  | some subs => some { e with subwords := subs.map fun s => fnv_hash s % bucket }

/-- `compare` from word.rs: same classification compares descending `count`
(`right.count.cmp(&left.count)`); different classifications compare by the
derived `Ord` on `EntryType` (`Word` before `Label`). -/
def compare (left right : WordEntry) : Ordering :=
  if left.entry_type = right.entry_type then Ord.compare right.count left.count
  else Ord.compare (entryTypeRank left.entry_type) (entryTypeRank right.entry_type)

/-- Stable insertion of one entry for `sortWords`: the new element goes after
every element it compares `Greater` than. -/
def sortInsert (e : WordEntry) : List WordEntry → List WordEntry
  | [] => [e]
  | x :: xs => if compare e x = Ordering.gt then x :: sortInsert e xs else e :: x :: xs

/-- `Vec::sort_by(word::compare)` from vocabulary.rs, modelled as a stable
insertion sort.  Rust's `sort_by` is a stable sort and `compare` is a total
preorder (classification rank, then descending count), so any stable sort
produces the same list. -/
def sortWords : List WordEntry → List WordEntry
  | [] => []
  | x :: xs => sortInsert x (sortWords xs)

/-- The retain predicate of `Vocabulary::threshold`: `Word` entries need
`count >= word_threshold`, `Label` entries need `count >= label_threshold`. -/
def keepEntry (word_threshold label_threshold : Nat) (e : WordEntry) : Bool :=
  match e.entry_type with
  | .Word => word_threshold ≤ e.count
  | .Label => label_threshold ≤ e.count

/-- `Vocabulary` from vocabulary.rs.  `word_to_index` holds `-1` for an empty
slot, otherwise an entry index.  The field `label_pre` is `label_prefix` in
the source. -/
structure Vocabulary : Type where
  words : List WordEntry
  word_to_index : List Int
  vocab_size : Nat
  n_tokens : Nat
  n_words : Nat
  n_labels : Nat
  size : Nat
  label_pre : List Nat
  min_n : Nat
  max_n : Nat
  bucket : Nat
deriving DecidableEq

/-- The UTF-8 bytes of `"__label__"`, the literal baked into
`Vocabulary::new`. -/
def labelMarker : List Nat := [95, 95, 108, 97, 98, 101, 108, 95, 95]

/-- `Vocabulary::new` from vocabulary.rs: empty entry list, table of
`vocab_size` empty (-1) slots, all counters zero, label marker fixed to
`"__label__"`. -/
def Vocabulary.new (vocab_size min_n max_n : Nat) (bucket : Nat) : Vocabulary :=
  { words := []
    word_to_index := List.replicate vocab_size (-1)
    vocab_size := vocab_size
    n_tokens := 0
    n_words := 0
    n_labels := 0
    size := 0
    label_pre := labelMarker
    min_n := min_n
    max_n := max_n
    bucket := bucket }

/-- The stop condition of the probe loop in `Vocabulary::hash_lookup`: the
slot is empty (`-1`) or the referenced entry's text equals the query. -/
def slotStops (words : List WordEntry) (tbl : List Int) (w : List Nat) (i : Nat) : Bool :=
  if tbl.getD i 0 = -1 then true
  else if (words.getD (tbl.getD i 0).toNat defaultEntry).word = w then true
  else false

/-- The probe loop of `Vocabulary::hash_lookup`, with explicit fuel: each
step either stops at the current slot or advances to `(h + 1) % cap`.
`none` models the infinite loop of a full table / exhausted fuel. -/
def hashLookupAux (words : List WordEntry) (tbl : List Int) (cap : Nat)
    (w : List Nat) (fuel h : Nat) : Option Nat :=
  match fuel with
  | 0 => none
  | fuel + 1 =>
    if slotStops words tbl w h then some h
    else hashLookupAux words tbl cap w fuel ((h + 1) % cap)

/-- `Vocabulary::hash_lookup` from vocabulary.rs: start at
`fnv_hash(word) % vocab_size` and probe linearly.  Fuel `vocab_size` is
enough whenever the table has an empty slot (proved below). -/
def hash_lookup (v : Vocabulary) (w : List Nat) : Option Nat :=
  hashLookupAux v.words v.word_to_index v.vocab_size w v.vocab_size
    (fnv_hash w % v.vocab_size)

/-- `Vocabulary::get_id` from vocabulary.rs: the slot's stored index
(`-1` when absent). -/
def get_id (v : Vocabulary) (w : List Nat) : Option Int :=
  match hash_lookup v w with
  | none => none
  | some h => some (v.word_to_index.getD h 0)

/-- The new-entry construction inside `Vocabulary::add`: build the entry,
and compute subwords only for `Word` entries (`none` propagates the
`parse_subwords` panic). -/
def newEntryFor (v : Vocabulary) (w : List Nat) : Option WordEntry :=
  let we := WordEntry.new w v.label_pre
  if we.entry_type = EntryType.Word then we.compute_subwords v.min_n v.max_n v.bucket
  else some we

/-- `self.words[index].count += 1` from `Vocabulary::add`. -/
def updateCount (ws : List WordEntry) (i : Nat) : List WordEntry :=
  ws.set i { ws.getD i defaultEntry with count := (ws.getD i defaultEntry).count + 1 }

/-- `Vocabulary::add` from vocabulary.rs.  `n_tokens` is incremented on every
call; an empty probe slot appends the new entry, records the old `size` in
the slot and increments `size`; an occupied slot increments that entry's
`count`.  `n_words`/`n_labels` are not touched (only `threshold` maintains
them). -/
def add (v : Vocabulary) (w : List Nat) : Option Vocabulary :=
  match hash_lookup v w with
  | none => none
  | some hash =>
    if v.word_to_index.getD hash 0 = -1 then
      match newEntryFor v w with
      | none => none
      | some we =>
        some { v with
          n_tokens := v.n_tokens + 1
          words := v.words ++ [we]
          word_to_index := v.word_to_index.set hash (Int.ofNat v.size)
          size := v.size + 1 }
    else
      some { v with
        n_tokens := v.n_tokens + 1
        words := updateCount v.words (v.word_to_index.getD hash 0).toNat }

/-- The re-hydration loop of `Vocabulary::threshold`: for each retained entry
(in sorted order) look up its slot, store the running `size` there, bump
`size` and the matching classification counter. -/
def rehydrate : List WordEntry → Vocabulary → Option Vocabulary
  | [], v => some v
  | e :: rest, v =>
    match hash_lookup v e.word with
    | none => none
    | some h =>
      rehydrate rest { v with
        word_to_index := v.word_to_index.set h (Int.ofNat v.size)
        size := v.size + 1
        n_words := if e.entry_type = EntryType.Word then v.n_words + 1 else v.n_words
        n_labels := if e.entry_type = EntryType.Word then v.n_labels else v.n_labels + 1 }

/-- `Vocabulary::threshold` from vocabulary.rs: sort by `compare`, retain per
`keepEntry`, reset `size`/`n_words`/`n_labels` and the table, then re-hydrate.
`n_tokens` is untouched. -/
def threshold (v : Vocabulary) (word_threshold label_threshold : Nat) :
    Option Vocabulary :=
  let retained := (sortWords v.words).filter (keepEntry word_threshold label_threshold)
  rehydrate retained
    { v with
      words := retained
      size := 0
      n_words := 0
      n_labels := 0
      word_to_index := List.replicate v.vocab_size (-1) }

/-- The structural invariant of a vocabulary (claim C10): the entry list's
length equals the `size` counter, the table has `vocab_size` slots, and every
non-sentinel slot value is a non-negative in-bounds entry index. -/
def Inv (v : Vocabulary) : Prop :=
  v.words.length = v.size ∧
  v.word_to_index.length = v.vocab_size ∧
  ∀ x ∈ v.word_to_index, x ≠ -1 → 0 ≤ x ∧ x.toNat < v.words.length

instance (v : Vocabulary) : Decidable (Inv v) := by
  unfold Inv; infer_instance

/-- A public operation on the vocabulary: one `add` or one `threshold`
(prune) call. -/
inductive Op : Type where
  | addOp : List Nat → Op
  | pruneOp : Nat → Nat → Op

/-- Apply one operation. -/
def applyOp (v : Vocabulary) : Op → Option Vocabulary
  | .addOp w => add v w
  | .pruneOp wt lt => threshold v wt lt

/-- Run a sequence of operations, stopping at the first failure. -/
def runOps : Vocabulary → List Op → Option Vocabulary
  | v, [] => some v
  | v, op :: rest =>
    match applyOp v op with
    | none => none
    | some v2 => runOps v2 rest

/-- Number of `add` operations in a sequence. -/
def countAdds : List Op → Nat
  | [] => 0
  | .addOp _ :: rest => countAdds rest + 1
  | .pruneOp _ _ :: rest => countAdds rest

/-! Concrete byte strings used by the repository's unit tests and the spec's
testable properties (all ASCII, so bytes = code points). -/

/-- "rust" -/
def rustB : List Nat := [114, 117, 115, 116]
/-- "foo" -/
def fooB : List Nat := [102, 111, 111]
/-- "bar" -/
def barB : List Nat := [98, 97, 114]
/-- "__label__baz" -/
def bazB : List Nat := labelMarker ++ [98, 97, 122]
/-- "biff" -/
def biffB : List Nat := [98, 105, 102, 102]
/-- "aé" — one ASCII byte followed by the two-byte character `é`
(`0xC3 0xA9`); byte offset 2 lies inside the second character. -/
def aeB : List Nat := [97, 195, 169]

/-- The fixture of `vocabulary.rs`'s `test_vocab()`: capacity 5, entries
foo/bar/__label__baz at indices 0/1/2, slots 3/2/1 occupied, slots 0 and 4
empty. -/
def testVocab : Vocabulary :=
  { words := [WordEntry.new fooB labelMarker, WordEntry.new barB labelMarker,
              WordEntry.new bazB labelMarker]
    word_to_index := [-1, 2, 1, 0, -1]
    vocab_size := 5
    n_tokens := 3
    n_words := 2
    n_labels := 1
    size := 3
    label_pre := labelMarker
    min_n := 2
    max_n := 4
    bucket := 10 }

/-- The slot reached after `d` probe steps for query `w`: start at
`fnv_hash w % vocab_size`, add `d`, wrap at `vocab_size`. -/
def probeSlot (v : Vocabulary) (w : List Nat) (d : Nat) : Nat :=
  (fnv_hash w % v.vocab_size + d) % v.vocab_size

/-- A slot is free when it holds the sentinel `-1`. -/
def slotFree (v : Vocabulary) (i : Nat) : Prop :=
  v.word_to_index.getD i 0 = -1

/-- A slot matches query `w` when its referenced entry's text equals `w`. -/
def slotMatches (v : Vocabulary) (w : List Nat) (i : Nat) : Prop :=
  (v.words.getD (v.word_to_index.getD i 0).toNat defaultEntry).word = w

theorem slotStops_iff (v : Vocabulary) (w : List Nat) (i : Nat) :
    slotStops v.words v.word_to_index w i = true ↔ slotFree v i ∨ slotMatches v w i := by
  unfold slotStops slotFree slotMatches
  split_ifs with h1 h2
  · exact iff_of_true rfl (Or.inl h1)
  · exact iff_of_true rfl (Or.inr h2)
  · constructor
    · intro hfalse; exact absurd hfalse (by simp)
    · rintro (hf | hm)
      · exact absurd hf h1
      · exact absurd hm h2

theorem getD_set_self {α : Type} (l : List α) (i : Nat) (a d : α) (h : i < l.length) :
    (l.set i a).getD i d = a := by
  induction l generalizing i with
  | nil => simp at h
  | cons x xs ih =>
    cases i with
    | zero => simp
    | succ n =>
      simp only [List.set_cons_succ, List.getD_cons_succ]
      exact ih n (by simp only [List.length_cons] at h; omega)

theorem getD_append_length {α : Type} (l : List α) (a d : α) :
    (l ++ [a]).getD l.length d = a := by
  induction l with
  | nil => simp
  | cons x xs ih =>
    simp only [List.cons_append, List.length_cons, List.getD_cons_succ]
    exact ih

theorem hashLookupAux_lt (words : List WordEntry) (tbl : List Int) (cap : Nat)
    (w : List Nat) :
    ∀ fuel h s, h < cap → hashLookupAux words tbl cap w fuel h = some s → s < cap := by
  intro fuel
  induction fuel with
  | zero => intro h s hh hres; simp [hashLookupAux] at hres
  | succ fuel ih =>
    intro h s hh hres
    rw [hashLookupAux] at hres
    by_cases hstop : slotStops words tbl w h = true
    · simp only [hstop, if_true, Option.some.injEq] at hres
      omega
    · rw [Bool.not_eq_true] at hstop
      simp only [hstop, Bool.false_eq_true, if_false] at hres
      exact ih _ s (Nat.mod_lt _ (by omega)) hres

theorem hashLookupAux_finds (words : List WordEntry) (tbl : List Int) (cap : Nat)
    (w : List Nat) :
    ∀ d h fuel, h < cap → d < fuel →
      slotStops words tbl w ((h + d) % cap) = true →
      (∀ j, j < d → slotStops words tbl w ((h + j) % cap) = false) →
      hashLookupAux words tbl cap w fuel h = some ((h + d) % cap) := by
  intro d
  induction d with
  | zero =>
    intro h fuel hh hfuel hstop _
    have hmod : (h + 0) % cap = h := by rw [Nat.add_zero, Nat.mod_eq_of_lt hh]
    rw [hmod] at hstop
    cases fuel with
    | zero => omega
    | succ fuel => rw [hmod]; simp [hashLookupAux, hstop]
  | succ d ih =>
    intro h fuel hh hfuel hstop hmin
    cases fuel with
    | zero => omega
    | succ fuel =>
      have h0 : slotStops words tbl w h = false := by
        have h00 := hmin 0 (Nat.succ_pos d)
        have hmod : (h + 0) % cap = h := by rw [Nat.add_zero, Nat.mod_eq_of_lt hh]
        rwa [hmod] at h00
      have hcap : 0 < cap := by omega
      have hstep : ∀ j, ((h + 1) % cap + j) % cap = (h + (j + 1)) % cap := by
        intro j
        rw [Nat.mod_add_mod]
        congr 1
        omega
      have hres := ih ((h + 1) % cap) fuel (Nat.mod_lt _ hcap) (by omega)
        (by rw [hstep d]; exact hstop)
        (by intro j hj; rw [hstep j]; exact hmin (j + 1) (by omega))
      simp only [hashLookupAux, h0, Bool.false_eq_true, if_false]
      rw [hres, hstep d]

theorem probe_reaches (cap h s : Nat) (hh : h < cap) (hs : s < cap) :
    (h + (cap + s - h) % cap) % cap = s := by
  rw [Nat.add_mod_mod]
  have heq : h + (cap + s - h) = s + cap := by omega
  rw [heq, Nat.add_mod_right, Nat.mod_eq_of_lt hs]

theorem hash_lookup_found (v : Vocabulary) (w : List Nat)
    (hempty : ∃ s, s < v.vocab_size ∧ v.word_to_index.getD s 0 = -1) :
    ∃ d, d < v.vocab_size ∧ hash_lookup v w = some (probeSlot v w d) ∧
      slotStops v.words v.word_to_index w (probeSlot v w d) = true ∧
      ∀ j, j < d → slotStops v.words v.word_to_index w (probeSlot v w j) = false := by
  obtain ⟨s, hs, hse⟩ := hempty
  have hcap : 0 < v.vocab_size := by omega
  set cap := v.vocab_size with hcapdef
  set h0 := fnv_hash w % cap with hh0def
  have hh0 : h0 < cap := Nat.mod_lt _ hcap
  have hex : ∃ j, slotStops v.words v.word_to_index w ((h0 + j) % cap) = true := by
    refine ⟨(cap + s - h0) % cap, ?_⟩
    rw [probe_reaches cap h0 s hh0 hs]
    unfold slotStops
    rw [hse, if_pos rfl]
  refine ⟨Nat.find hex, ?_, ?_, ?_, ?_⟩
  · have hle : Nat.find hex ≤ (cap + s - h0) % cap := by
      apply Nat.find_min' hex
      rw [probe_reaches cap h0 s hh0 hs]
      unfold slotStops
      rw [hse, if_pos rfl]
    have : (cap + s - h0) % cap < cap := Nat.mod_lt _ hcap
    omega
  · unfold hash_lookup probeSlot
    exact hashLookupAux_finds v.words v.word_to_index cap w (Nat.find hex) h0 cap hh0
      (by
        have hle : Nat.find hex ≤ (cap + s - h0) % cap := by
          apply Nat.find_min' hex
          rw [probe_reaches cap h0 s hh0 hs]
          unfold slotStops
          rw [hse, if_pos rfl]
        have : (cap + s - h0) % cap < cap := Nat.mod_lt _ hcap
        omega)
      (Nat.find_spec hex)
      (by
        intro j hj
        have := Nat.find_min hex hj
        rwa [Bool.not_eq_true] at this)
  · exact Nat.find_spec hex
  · intro j hj
    have := Nat.find_min hex hj
    rwa [Bool.not_eq_true] at this

theorem hash_lookup_some_lt (v : Vocabulary) (w : List Nat) (s : Nat)
    (h : hash_lookup v w = some s) : s < v.vocab_size := by
  unfold hash_lookup at h
  rcases Nat.eq_zero_or_pos v.vocab_size with hz | hpos
  · rw [hz] at h; simp [hashLookupAux] at h
  · exact hashLookupAux_lt v.words v.word_to_index v.vocab_size w v.vocab_size
      (fnv_hash w % v.vocab_size) s (Nat.mod_lt _ hpos) h

theorem newEntryFor_some {v : Vocabulary} {w : List Nat} {we : WordEntry}
    (h : newEntryFor v w = some we) :
    we.word = w ∧ we.entry_type = get_type w v.label_pre ∧ we.count = 1 := by
  unfold newEntryFor at h
  simp only at h
  split_ifs at h with ht
  · unfold WordEntry.compute_subwords at h
    cases hp : parse_subwords (WordEntry.new w v.label_pre).word v.min_n v.max_n with
    | none => rw [hp] at h; simp at h
    | some subs =>
      rw [hp] at h
      simp only [Option.some.injEq] at h
      rw [← h]
      exact ⟨rfl, rfl, rfl⟩
  · simp only [Option.some.injEq] at h
    rw [← h]
    exact ⟨rfl, rfl, rfl⟩

theorem add_some_hash {v v' : Vocabulary} {w : List Nat} (hadd : add v w = some v') :
    ∃ s, hash_lookup v w = some s := by
  unfold add at hadd
  cases hx : hash_lookup v w with
  | none => rw [hx] at hadd; simp at hadd
  | some s => exact ⟨s, rfl⟩

theorem add_some_cases {v v' : Vocabulary} {w : List Nat} {s : Nat}
    (hs : hash_lookup v w = some s) (hadd : add v w = some v') :
    (v.word_to_index.getD s 0 = -1 ∧ ∃ we, newEntryFor v w = some we ∧
       v' = { v with
              n_tokens := v.n_tokens + 1
              words := v.words ++ [we]
              word_to_index := v.word_to_index.set s (Int.ofNat v.size)
              size := v.size + 1 }) ∨
    (v.word_to_index.getD s 0 ≠ -1 ∧
       v' = { v with
              n_tokens := v.n_tokens + 1
              words := updateCount v.words (v.word_to_index.getD s 0).toNat }) := by
  unfold add at hadd
  rw [hs] at hadd
  simp only at hadd
  split_ifs at hadd with hempt
  · left
    refine ⟨hempt, ?_⟩
    cases hne : newEntryFor v w with
    | none => rw [hne] at hadd; simp at hadd
    | some we =>
      rw [hne] at hadd
      simp only [Option.some.injEq] at hadd
      exact ⟨we, rfl, hadd.symm⟩
  · right
    simp only [Option.some.injEq] at hadd
    exact ⟨hempt, hadd.symm⟩

theorem add_frame {v v' : Vocabulary} {w : List Nat} (hadd : add v w = some v') :
    v'.n_tokens = v.n_tokens + 1 ∧ v'.label_pre = v.label_pre ∧
    v'.vocab_size = v.vocab_size ∧ v'.min_n = v.min_n ∧ v'.max_n = v.max_n ∧
    v'.bucket = v.bucket ∧ v'.n_words = v.n_words ∧ v'.n_labels = v.n_labels := by
  obtain ⟨s, hs⟩ := add_some_hash hadd
  rcases add_some_cases hs hadd with ⟨_, we, _, rfl⟩ | ⟨_, rfl⟩ <;>
    exact ⟨rfl, rfl, rfl, rfl, rfl, rfl, rfl, rfl⟩

theorem add_inv {v v' : Vocabulary} {w : List Nat} (hinv : Inv v)
    (hadd : add v w = some v') : Inv v' := by
  obtain ⟨hlen, htbl, hvals⟩ := hinv
  obtain ⟨s, hs⟩ := add_some_hash hadd
  rcases add_some_cases hs hadd with ⟨hempt, we, hne, rfl⟩ | ⟨hocc, rfl⟩
  · refine ⟨?_, ?_, ?_⟩
    · simp only [List.length_append, List.length_singleton, hlen]
    · simp only [List.length_set, htbl]
    · intro x hx hxne
      simp only [List.length_append, List.length_singleton]
      rcases List.mem_or_eq_of_mem_set hx with hmem | rfl
      · have hv := hvals x hmem hxne
        omega
      · have hcast : Int.ofNat v.size = (v.size : Int) := rfl
        rw [hcast]
        omega
  · refine ⟨?_, ?_, ?_⟩
    · simp only [updateCount, List.length_set, hlen]
    · exact htbl
    · intro x hx hxne
      have hv := hvals x hx hxne
      simp only [updateCount, List.length_set]
      exact hv

theorem rehydrate_frame : ∀ (pending : List WordEntry) (v v'' : Vocabulary),
    rehydrate pending v = some v'' →
    v''.words = v.words ∧ v''.n_tokens = v.n_tokens ∧ v''.label_pre = v.label_pre ∧
    v''.vocab_size = v.vocab_size ∧ v''.min_n = v.min_n ∧ v''.max_n = v.max_n ∧
    v''.bucket = v.bucket := by
  intro pending
  induction pending with
  | nil =>
    intro v v'' h
    simp only [rehydrate, Option.some.injEq] at h
    rw [← h]
    exact ⟨rfl, rfl, rfl, rfl, rfl, rfl, rfl⟩
  | cons e rest ih =>
    intro v v'' h
    rw [rehydrate] at h
    cases hx : hash_lookup v e.word with
    | none => rw [hx] at h; simp at h
    | some hh =>
      rw [hx] at h
      simp only at h
      have hrec := ih _ _ h
      exact hrec

theorem rehydrate_counts : ∀ (pending : List WordEntry) (v v'' : Vocabulary),
    rehydrate pending v = some v'' →
    v''.size = v.size + pending.length ∧
    v''.n_words + v''.n_labels = v.n_words + v.n_labels + pending.length := by
  intro pending
  induction pending with
  | nil =>
    intro v v'' h
    simp only [rehydrate, Option.some.injEq] at h
    rw [← h]
    exact ⟨rfl, rfl⟩
  | cons e rest ih =>
    intro v v'' h
    rw [rehydrate] at h
    cases hx : hash_lookup v e.word with
    | none => rw [hx] at h; simp at h
    | some hh =>
      rw [hx] at h
      simp only at h
      have h2 := ih _ _ h
      simp only [] at h2
      simp only [List.length_cons]
      by_cases hty : e.entry_type = EntryType.Word
      · rw [if_pos hty, if_pos hty] at h2
        omega
      · rw [if_neg hty, if_neg hty] at h2
        omega

theorem rehydrate_inv : ∀ (pending : List WordEntry) (v v'' : Vocabulary),
    v.word_to_index.length = v.vocab_size →
    v.words.length = v.size + pending.length →
    (∀ x ∈ v.word_to_index, x ≠ -1 → 0 ≤ x ∧ x.toNat < v.size) →
    rehydrate pending v = some v'' → Inv v'' := by
  intro pending
  induction pending with
  | nil =>
    intro v v'' hlen hwords hvals h
    simp only [rehydrate, Option.some.injEq] at h
    rw [← h]
    refine ⟨by simpa using hwords, hlen, ?_⟩
    intro x hx hxne
    have hv := hvals x hx hxne
    omega
  | cons e rest ih =>
    intro v v'' hlen hwords hvals h
    rw [rehydrate] at h
    cases hx : hash_lookup v e.word with
    | none => rw [hx] at h; simp at h
    | some hh =>
      rw [hx] at h
      simp only at h
      refine ih _ _ ?_ ?_ ?_ h
      · show (v.word_to_index.set hh (Int.ofNat v.size)).length = v.vocab_size
        rw [List.length_set]
        exact hlen
      · show v.words.length = v.size + 1 + rest.length
        simp only [List.length_cons] at hwords
        omega
      · intro x hxm hxne
        have hxm2 : x ∈ v.word_to_index.set hh (Int.ofNat v.size) := hxm
        show 0 ≤ x ∧ x.toNat < v.size + 1
        rcases List.mem_or_eq_of_mem_set hxm2 with hmem | rfl
        · have hv := hvals x hmem hxne
          omega
        · have hcast : Int.ofNat v.size = (v.size : Int) := rfl
          rw [hcast]
          omega

theorem sortInsert_length (e : WordEntry) (l : List WordEntry) :
    (sortInsert e l).length = l.length + 1 := by
  induction l with
  | nil => rfl
  | cons x xs ih =>
    rw [sortInsert]
    split_ifs
    · simp only [List.length_cons, ih]
    · simp only [List.length_cons]

theorem sortWords_length (l : List WordEntry) : (sortWords l).length = l.length := by
  induction l with
  | nil => rfl
  | cons x xs ih => rw [sortWords, sortInsert_length, ih, List.length_cons]

theorem keepEntry_zero (e : WordEntry) : keepEntry 0 0 e = true := by
  unfold keepEntry
  cases e.entry_type <;> simp

theorem threshold_some {v v' : Vocabulary} {wt lt : Nat}
    (h : threshold v wt lt = some v') :
    v'.n_words + v'.n_labels = v'.size ∧
    v'.words = (sortWords v.words).filter (keepEntry wt lt) ∧
    v'.n_tokens = v.n_tokens ∧ v'.label_pre = v.label_pre ∧
    v'.vocab_size = v.vocab_size ∧ Inv v' := by
  unfold threshold at h
  have hframe := rehydrate_frame _ _ _ h
  have hcounts := rehydrate_counts _ _ _ h
  have hinv := rehydrate_inv _ _ _
    (by simp only [List.length_replicate]) (by simp)
    (by
      intro x hx hxne
      exact absurd (List.eq_of_mem_replicate hx) hxne)
    h
  simp only at hframe hcounts
  refine ⟨by omega, ?_, hframe.2.1, hframe.2.2.1, hframe.2.2.2.1, hinv⟩
  exact hframe.1

theorem inv_new (vs mn mx b : Nat) : Inv (Vocabulary.new vs mn mx b) := by
  refine ⟨rfl, by simp [Vocabulary.new, List.length_replicate], ?_⟩
  intro x hx hxne
  exact absurd (List.eq_of_mem_replicate hx) hxne

theorem runOps_n_tokens : ∀ (ops : List Op) (v v' : Vocabulary),
    runOps v ops = some v' → v'.n_tokens = v.n_tokens + countAdds ops := by
  intro ops
  induction ops with
  | nil =>
    intro v v' h
    simp only [runOps, Option.some.injEq] at h
    rw [← h, countAdds]
    omega
  | cons op rest ih =>
    intro v v' h
    rw [runOps] at h
    cases hx : applyOp v op with
    | none => rw [hx] at h; simp at h
    | some v2 =>
      rw [hx] at h
      simp only at h
      have h2 := ih v2 v' h
      cases op with
      | addOp w =>
        simp only [applyOp] at hx
        have hf := add_frame hx
        rw [countAdds]
        omega
      | pruneOp wta lta =>
        simp only [applyOp] at hx
        have hf := threshold_some hx
        rw [countAdds]
        omega

theorem getD_mem_of_lt {α : Type} (l : List α) (i : Nat) (d : α) (h : i < l.length) :
    l.getD i d ∈ l := by
  induction l generalizing i with
  | nil => simp at h
  | cons x xs ih =>
    cases i with
    | zero => simp
    | succ n =>
      simp only [List.getD_cons_succ]
      exact List.mem_cons_of_mem _ (ih n (by simp only [List.length_cons] at h; omega))

theorem subwordsAtWidthAux_sound (word : List Nat) (width : Nat) :
    ∀ idxs subs, subwordsAtWidthAux word width idxs = some subs →
      ∀ s ∈ subs, ∃ i ∈ idxs, ¬(word.getD i 0 &&& 192 = 128) ∧
        i + width ≤ word.length ∧
        (i + width = word.length ∨ ¬(word.getD (i + width) 0 &&& 192 = 128)) ∧
        s = (word.drop i).take width := by
  intro idxs
  induction idxs with
  | nil =>
    intro subs h s hs
    simp only [subwordsAtWidthAux, Option.some.injEq] at h
    rw [← h] at hs
    simp at hs
  | cons i rest ih =>
    intro subs h s hs
    rw [subwordsAtWidthAux] at h
    split_ifs at h with hcont hfit hbound
    · obtain ⟨j, hj, hp⟩ := ih subs h s hs
      exact ⟨j, List.mem_cons_of_mem _ hj, hp⟩
    · cases hrec : subwordsAtWidthAux word width rest with
      | none => rw [hrec] at h; simp at h
      | some subs2 =>
        rw [hrec] at h
        simp only [Option.some.injEq] at h
        rw [← h] at hs
        rcases List.mem_cons.mp hs with rfl | hs2
        · exact ⟨i, List.mem_cons_self i rest, hcont, hfit, hbound, rfl⟩
        · obtain ⟨j, hj, hp⟩ := ih subs2 hrec s hs2
          exact ⟨j, List.mem_cons_of_mem _ hj, hp⟩
    · obtain ⟨j, hj, hp⟩ := ih subs h s hs
      exact ⟨j, List.mem_cons_of_mem _ hj, hp⟩

theorem windowPanics_lt {word : List Nat} {width i : Nat}
    (h : windowPanics word width i) : i < word.length := by
  obtain ⟨h1, h2, h3⟩ := h
  push_neg at h3
  omega

theorem subwordsAtWidthAux_none_iff (word : List Nat) (width : Nat) :
    ∀ idxs, subwordsAtWidthAux word width idxs = none ↔
      ∃ i ∈ idxs, windowPanics word width i := by
  intro idxs
  induction idxs with
  | nil => simp [subwordsAtWidthAux]
  | cons i rest ih =>
    rw [subwordsAtWidthAux]
    split_ifs with hcont hfit hbound
    · rw [ih]
      constructor
      · rintro ⟨j, hj, hp⟩
        exact ⟨j, List.mem_cons_of_mem _ hj, hp⟩
      · rintro ⟨j, hj, hp⟩
        rcases List.mem_cons.mp hj with rfl | hj2
        · exact absurd hcont hp.1
        · exact ⟨j, hj2, hp⟩
    · cases hrec : subwordsAtWidthAux word width rest with
      | none =>
        constructor
        · intro _
          obtain ⟨j, hj, hp⟩ := ih.mp hrec
          exact ⟨j, List.mem_cons_of_mem _ hj, hp⟩
        · intro _
          rfl
      | some subs2 =>
        constructor
        · intro hc
          simp at hc
        · rintro ⟨j, hj, hp⟩
          rcases List.mem_cons.mp hj with rfl | hj2
          · exact absurd hbound hp.2.2
          · have hcontr := ih.mpr ⟨j, hj2, hp⟩
            rw [hrec] at hcontr
            exact absurd hcontr (by simp)
    · constructor
      · intro _
        exact ⟨i, List.mem_cons_self i rest, hcont, hfit, hbound⟩
      · intro _
        rfl
    · rw [ih]
      constructor
      · rintro ⟨j, hj, hp⟩
        exact ⟨j, List.mem_cons_of_mem _ hj, hp⟩
      · rintro ⟨j, hj, hp⟩
        rcases List.mem_cons.mp hj with rfl | hj2
        · exact absurd hp.2.1 hfit
        · exact ⟨j, hj2, hp⟩

theorem subwordsAtWidth_none_iff (word : List Nat) (width : Nat) :
    subwordsAtWidth word width = none ↔ ∃ i, windowPanics word width i := by
  unfold subwordsAtWidth
  rw [subwordsAtWidthAux_none_iff]
  constructor
  · rintro ⟨i, _, hp⟩
    exact ⟨i, hp⟩
  · rintro ⟨i, hp⟩
    exact ⟨i, List.mem_range.mpr (windowPanics_lt hp), hp⟩

theorem parseSubwordsAux_none_iff (word : List Nat) :
    ∀ ws, parseSubwordsAux word ws = none ↔
      ∃ width ∈ ws, subwordsAtWidth word width = none := by
  intro ws
  induction ws with
  | nil => simp [parseSubwordsAux]
  | cons width rest ih =>
    rw [parseSubwordsAux]
    cases hw : subwordsAtWidth word width with
    | none =>
      constructor
      · intro _
        exact ⟨width, List.mem_cons_self width rest, hw⟩
      · intro _
        rfl
    | some subs =>
      cases hrec : parseSubwordsAux word rest with
      | none =>
        constructor
        · intro _
          obtain ⟨w2, hw2, hn⟩ := ih.mp hrec
          exact ⟨w2, List.mem_cons_of_mem _ hw2, hn⟩
        · intro _
          rfl
      | some more =>
        constructor
        · intro hc
          simp at hc
        · rintro ⟨w2, hw2, hn⟩
          rcases List.mem_cons.mp hw2 with rfl | h2
          · rw [hw] at hn
            exact absurd hn (by simp)
          · have hcontr := ih.mpr ⟨w2, h2, hn⟩
            rw [hrec] at hcontr
            exact absurd hcontr (by simp)

theorem parseSubwordsAux_sound (word : List Nat) :
    ∀ ws subs, parseSubwordsAux word ws = some subs →
      ∀ s ∈ subs, ∃ width ∈ ws, ∃ subsw,
        subwordsAtWidth word width = some subsw ∧ s ∈ subsw := by
  intro ws
  induction ws with
  | nil =>
    intro subs h s hs
    simp only [parseSubwordsAux, Option.some.injEq] at h
    rw [← h] at hs
    simp at hs
  | cons width rest ih =>
    intro subs h s hs
    rw [parseSubwordsAux] at h
    cases hw : subwordsAtWidth word width with
    | none => rw [hw] at h; simp at h
    | some subsw =>
      rw [hw] at h
      cases hrec : parseSubwordsAux word rest with
      | none => rw [hrec] at h; simp at h
      | some more =>
        rw [hrec] at h
        simp only [Option.some.injEq] at h
        rw [← h] at hs
        rcases List.mem_append.mp hs with hs1 | hs2
        · exact ⟨width, List.mem_cons_self width rest, subsw, hw, hs1⟩
        · obtain ⟨w2, hw2, subsw2, hsw2, hmem⟩ := ih more hrec s hs2
          exact ⟨w2, List.mem_cons_of_mem _ hw2, subsw2, hsw2, hmem⟩

theorem parse_subwords_sound {word : List Nat} {min_n max_n : Nat}
    {subs : List (List Nat)} (h : parse_subwords word min_n max_n = some subs) :
    ∀ s ∈ subs, ∃ width i, min_n ≤ width ∧ width ≤ max_n ∧ i + width ≤ word.length ∧
      ¬(word.getD i 0 &&& 192 = 128) ∧
      (i + width = word.length ∨ ¬(word.getD (i + width) 0 &&& 192 = 128)) ∧
      s = (word.drop i).take width := by
  unfold parse_subwords at h
  split_ifs at h with h0 h1
  · simp only [Option.some.injEq] at h
    rw [← h]
    intro s hs
    simp at hs
  · intro s hs
    obtain ⟨width, hwmem, subsw, hsw, hmem⟩ := parseSubwordsAux_sound word _ subs h s hs
    rw [List.mem_range'_1] at hwmem
    obtain ⟨i, _, hp1, hp2, hp3, hp4⟩ :=
      subwordsAtWidthAux_sound word width _ subsw hsw s hmem
    exact ⟨width, i, by omega, by omega, hp2, hp1, hp3, hp4⟩

/-! ## The claims -/

/-- C1 counterexample: the claim as stated is false — `add` of a fresh `Word`
token appends the entry and bumps `size` and `n_tokens`, but leaves
`n_words` (and `n_labels`) at 0 instead of incrementing the classification
counter. -/
theorem claim1_cex :
    (add (Vocabulary.new 5 2 3 10) fooB).map
      (fun v => (v.size, v.n_words, v.n_labels, v.n_tokens,
                 (v.words.getD 0 defaultEntry).entry_type)) =
      some (1, 0, 0, 1, EntryType.Word) := by decide

/-- C1 (amended): for a vocabulary satisfying the structural invariant, a
successful `add` increments `total_tokens`; when the probe slot is empty it
appends the new entry, records its index (`size`) in the slot and increments
`live_size`; when the token is present it leaves `live_size` and the entry
list length unchanged and increments only that entry's `count`; in both
cases `word_count` and `label_count` are unchanged (they are maintained only
by `threshold`). -/
theorem claim1_add_effects (v v' : Vocabulary) (w : List Nat) (s : Nat)
    (hinv : Inv v) (hs : hash_lookup v w = some s) (hadd : add v w = some v') :
    v'.n_tokens = v.n_tokens + 1 ∧
    v'.n_words = v.n_words ∧ v'.n_labels = v.n_labels ∧
    (v.word_to_index.getD s 0 = -1 →
      v'.words.length = v.words.length + 1 ∧
      (v'.words.getD v.words.length defaultEntry).word = w ∧
      v'.size = v.size + 1 ∧
      v'.word_to_index.getD s 0 = Int.ofNat v.size) ∧
    (v.word_to_index.getD s 0 ≠ -1 →
      v'.size = v.size ∧ v'.words.length = v.words.length ∧
      (v'.words.getD (v.word_to_index.getD s 0).toNat defaultEntry).count =
        (v.words.getD (v.word_to_index.getD s 0).toNat defaultEntry).count + 1) := by
  obtain ⟨hlen, htbl, hvals⟩ := hinv
  have hslt : s < v.vocab_size := hash_lookup_some_lt v w s hs
  rcases add_some_cases hs hadd with ⟨hempt, we, hne, rfl⟩ | ⟨hocc, rfl⟩
  · obtain ⟨hword, hty, hcount⟩ := newEntryFor_some hne
    refine ⟨rfl, rfl, rfl, ?_, ?_⟩
    · intro _
      refine ⟨?_, ?_, rfl, ?_⟩
      · simp [List.length_append]
      · show ((v.words ++ [we]).getD v.words.length defaultEntry).word = w
        rw [getD_append_length]
        exact hword
      · show (v.word_to_index.set s (Int.ofNat v.size)).getD s 0 = Int.ofNat v.size
        exact getD_set_self _ _ _ _ (by omega)
    · intro hocc
      exact absurd hempt hocc
  · refine ⟨rfl, rfl, rfl, ?_, ?_⟩
    · intro hempt
      exact absurd hempt hocc
    · intro _
      have hidx : (v.word_to_index.getD s 0).toNat < v.words.length := by
        have hmem : v.word_to_index.getD s 0 ∈ v.word_to_index :=
          getD_mem_of_lt _ _ _ (by omega)
        exact (hvals _ hmem hocc).2
      refine ⟨rfl, ?_, ?_⟩
      · show (updateCount v.words (v.word_to_index.getD s 0).toNat).length = v.words.length
        rw [updateCount, List.length_set]
      · show ((updateCount v.words (v.word_to_index.getD s 0).toNat).getD
            (v.word_to_index.getD s 0).toNat defaultEntry).count = _
        rw [updateCount, getD_set_self _ _ _ _ hidx]

/-- C1 witness: adding the fresh token "biff" to the test fixture bumps
`n_tokens` and `size` by one and leaves `n_words`/`n_labels` unchanged. -/
theorem claim1_witness :
    ∃ v', add testVocab biffB = some v' ∧
      v'.n_tokens = testVocab.n_tokens + 1 ∧ v'.size = testVocab.size + 1 ∧
      v'.n_words = testVocab.n_words ∧ v'.n_labels = testVocab.n_labels := by
  cases hadd : add testVocab biffB with
  | none => exact absurd hadd (by decide)
  | some v' =>
    have h := claim1_add_effects testVocab v' biffB 0 (by decide) (by decide) hadd
    exact ⟨v', rfl, h.1, (h.2.2.2.1 (by decide)).2.2.1, h.2.1, h.2.2.1⟩

/-- C2: slot lookup starts at `fnv_hash(text) % capacity` and probes forward
linearly with wraparound, returning the first slot that is empty or whose
entry's text equals the query, never stopping at a non-matching occupied
slot; on the capacity-5 fixture it returns slot 3 for "foo", slot 2 for
"bar" and slot 1 for "__label__baz". -/
theorem claim2_probe :
    (∀ v w, (∃ s, s < v.vocab_size ∧ slotFree v s) →
      ∃ d, d < v.vocab_size ∧ hash_lookup v w = some (probeSlot v w d) ∧
        (slotFree v (probeSlot v w d) ∨ slotMatches v w (probeSlot v w d)) ∧
        ∀ j, j < d → ¬slotFree v (probeSlot v w j) ∧ ¬slotMatches v w (probeSlot v w j)) ∧
    hash_lookup testVocab fooB = some 3 ∧
    hash_lookup testVocab barB = some 2 ∧
    hash_lookup testVocab bazB = some 1 := by
  refine ⟨?_, by decide, by decide, by decide⟩
  intro v w hempty
  have hempty2 : ∃ s, s < v.vocab_size ∧ v.word_to_index.getD s 0 = -1 := by
    obtain ⟨s, h1, h2⟩ := hempty
    exact ⟨s, h1, h2⟩
  obtain ⟨d, hd, hres, hstop, hmin⟩ := hash_lookup_found v w hempty2
  refine ⟨d, hd, hres, (slotStops_iff v w _).mp hstop, ?_⟩
  intro j hj
  have hf := hmin j hj
  have hnot : ¬(slotFree v (probeSlot v w j) ∨ slotMatches v w (probeSlot v w j)) := by
    rw [← slotStops_iff, hf]
    simp
  exact not_or.mp hnot

/-- C2 witness: the general probe characterisation applied to the fixture
and the query "foo". -/
theorem claim2_witness :
    ∃ d, d < testVocab.vocab_size ∧
      hash_lookup testVocab fooB = some (probeSlot testVocab fooB d) ∧
      (slotFree testVocab (probeSlot testVocab fooB d) ∨
        slotMatches testVocab fooB (probeSlot testVocab fooB d)) ∧
      ∀ j, j < d → ¬slotFree testVocab (probeSlot testVocab fooB j) ∧
        ¬slotMatches testVocab fooB (probeSlot testVocab fooB j) :=
  claim2_probe.1 testVocab fooB ⟨0, by decide, by unfold slotFree; decide⟩

/-- C3 counterexample: the claim's "keeps a width-w byte substring whenever
it fits within the token's byte length" is false of the program — for the
token "aé" (bytes [97,195,169]) with `min_n=2, max_n=3`, the width-2 window
at offset 0 fits (0+2 ≤ 3) but its end lands on the continuation byte at
offset 2, so `&self.word[0..2]` panics (modelled as `none`) instead of the
extraction keeping that substring. -/
theorem claim3_cex : parse_subwords aeB 2 3 = none := by decide

/-- C3 (amended): subword extraction iterates widths `min_n ..= max_n`
outside and byte offsets inside, skips continuation-byte offsets, and for
each width-`w` window that fits within the token's byte length keeps the
`w`-byte substring when the window's end is a char boundary (the end of the
token or a non-continuation byte) — panicking otherwise; duplicates are
retained in order and each candidate is hashed modulo `bucket`; for "rust"
with `min_n=2, max_n=3` the candidates are ru/us/st/rus/ust and with
`bucket=10` the hashes are [0,9,2,7,7]. -/
theorem claim3_subwords :
    parse_subwords rustB 2 3 =
      some [[114, 117], [117, 115], [115, 116], [114, 117, 115], [117, 115, 116]] ∧
    ((WordEntry.new rustB labelMarker).compute_subwords 2 3 10).map
      (fun e => e.subwords) = some [0, 9, 2, 7, 7] ∧
    ∀ word min_n max_n subs, parse_subwords word min_n max_n = some subs →
      ∀ s ∈ subs, ∃ width i, min_n ≤ width ∧ width ≤ max_n ∧ i + width ≤ word.length ∧
        ¬(word.getD i 0 &&& 192 = 128) ∧
        (i + width = word.length ∨ ¬(word.getD (i + width) 0 &&& 192 = 128)) ∧
        s = (word.drop i).take width := by
  refine ⟨by decide, by decide, ?_⟩
  intro word min_n max_n subs h
  exact parse_subwords_sound h

/-- C3 witness: the soundness part applied to "rust" and the candidate "ru". -/
theorem claim3_witness :
    ∃ width i, 2 ≤ width ∧ width ≤ 3 ∧ i + width ≤ rustB.length ∧
      ¬(rustB.getD i 0 &&& 192 = 128) ∧
      (i + width = rustB.length ∨ ¬(rustB.getD (i + width) 0 &&& 192 = 128)) ∧
      [114, 117] = (rustB.drop i).take width :=
  claim3_subwords.2.2 rustB 2 3
    [[114, 117], [117, 115], [115, 116], [114, 117, 115], [117, 115, 116]]
    (by decide) [114, 117] (by decide)

/-- C4 counterexample: the claim as stated is false — after `add` of a fresh
token, `word_count + label_count` is 0 while `live_size` is 1, so the
equality does not hold after every completed `add`. -/
theorem claim4_cex :
    (add (Vocabulary.new 5 2 3 10) fooB).map (fun v => v.n_words + v.n_labels) =
      some 0 ∧
    (add (Vocabulary.new 5 2 3 10) fooB).map (fun v => v.size) = some 1 := by
  exact ⟨by decide, by decide⟩

/-- C4 (amended): after every completed `threshold` (prune) call,
`word_count + label_count = live_size` holds, and pruning with both
thresholds 0 drops no entries; the equality is not maintained by `add`,
which leaves `word_count`/`label_count` unchanged. -/
theorem claim4_prune_counts (v v' : Vocabulary) (wt lt : Nat)
    (h : threshold v wt lt = some v') :
    v'.n_words + v'.n_labels = v'.size ∧
    (wt = 0 → lt = 0 → v'.words.length = v.words.length) := by
  obtain ⟨hcnt, hwords, _, _, _, _⟩ := threshold_some h
  refine ⟨hcnt, ?_⟩
  intro hwt hlt
  rw [hwords, hwt, hlt]
  rw [List.filter_eq_self.mpr (fun a _ => keepEntry_zero a), sortWords_length]

/-- C4 witness: pruning the fixture with thresholds 0 keeps all three
entries and re-establishes `n_words + n_labels = size`. -/
theorem claim4_witness :
    ∃ v', threshold testVocab 0 0 = some v' ∧ v'.n_words + v'.n_labels = v'.size ∧
      v'.words.length = testVocab.words.length := by
  cases ht : threshold testVocab 0 0 with
  | none => exact absurd ht (by decide)
  | some v' =>
    have h := claim4_prune_counts testVocab v' 0 0 ht
    exact ⟨v', rfl, h.1, h.2 rfl rfl⟩

/-- C5: the hash is FNV-1a over the bytes — offset basis 2166136261, and per
byte the accumulator is XORed with the byte then multiplied by 16777619 with
32-bit wraparound — and `hash("rust") = 490716647`. -/
theorem claim5_fnv :
    fnv_hash [] = 2166136261 ∧
    (∀ bs b, fnv_hash (bs ++ [b]) = ((fnv_hash bs ^^^ b) * 16777619) % 2 ^ 32) ∧
    fnv_hash rustB = 490716647 := by
  refine ⟨rfl, ?_, by decide⟩
  intro bs b
  unfold fnv_hash
  rw [List.foldl_append]
  rfl

/-- C5 witness: the per-byte step law applied at a concrete byte. -/
theorem claim5_witness :
    fnv_hash ([114] ++ [117]) = ((fnv_hash [114] ^^^ 117) * 16777619) % 2 ^ 32 :=
  claim5_fnv.2.1 [114] 117

/-- C6 counterexample: the claim's "it fails in no other case" is false of
the program — with both parameters nonzero and `min_n < max_n` (a valid
configuration), extraction on "aé" (bytes [97,195,169]) still fails,
because the fitting width-2 window at offset 0 ends inside the two-byte
character and the slice panics. -/
theorem claim6_cex :
    (2 : Nat) ≠ 0 ∧ (3 : Nat) ≠ 0 ∧ (2 : Nat) < 3 ∧
    parse_subwords aeB 2 3 = none := by decide

/-- C6 (amended): `min_n = 0` or `max_n = 0` (in either order) yields the
empty subword list; both nonzero with `min_n >= max_n` is a fatal
configuration error (modelled as `none`); otherwise extraction fails
exactly when some in-range window that fits in the token has its end inside
a multi-byte character (the str-slice char-boundary panic) — and in no
other case. -/
theorem claim6_subword_config (word : List Nat) (min_n max_n : Nat) :
    ((min_n = 0 ∨ max_n = 0) → parse_subwords word min_n max_n = some []) ∧
    (min_n ≠ 0 → max_n ≠ 0 → min_n ≥ max_n → parse_subwords word min_n max_n = none) ∧
    (min_n ≠ 0 → max_n ≠ 0 → min_n < max_n →
      (parse_subwords word min_n max_n = none ↔
        ∃ width i, min_n ≤ width ∧ width ≤ max_n ∧ windowPanics word width i)) := by
  refine ⟨?_, ?_, ?_⟩
  · intro h0
    unfold parse_subwords
    rw [if_pos h0]
  · intro h1 h2 h3
    unfold parse_subwords
    rw [if_neg (by push_neg; exact ⟨h1, h2⟩), if_pos h3]
  · intro h1 h2 h3
    unfold parse_subwords
    rw [if_neg (by push_neg; exact ⟨h1, h2⟩), if_neg (by omega)]
    rw [parseSubwordsAux_none_iff]
    constructor
    · rintro ⟨width, hwmem, hn⟩
      rw [List.mem_range'_1] at hwmem
      obtain ⟨i, hp⟩ := (subwordsAtWidth_none_iff word width).mp hn
      exact ⟨width, i, by omega, by omega, hp⟩
    · rintro ⟨width, i, hw1, hw2, hp⟩
      refine ⟨width, ?_, (subwordsAtWidth_none_iff word width).mpr ⟨i, hp⟩⟩
      rw [List.mem_range'_1]
      omega

/-- C6 witness: the configuration cases at concrete inputs — each zero
parameter, inverted parameters, the boundary panic on "aé" via the
characterisation, and plain success on the ASCII token "rust". -/
theorem claim6_witness :
    parse_subwords rustB 0 3 = some [] ∧ parse_subwords rustB 2 0 = some [] ∧
    parse_subwords rustB 2 1 = none ∧
    parse_subwords aeB 2 3 = none ∧
    parse_subwords rustB 2 3 ≠ none := by
  refine ⟨(claim6_subword_config rustB 0 3).1 (Or.inl rfl),
          (claim6_subword_config rustB 2 0).1 (Or.inr rfl),
          (claim6_subword_config rustB 2 1).2.1 (by decide) (by decide) (by decide),
          ?_, by decide⟩
  exact ((claim6_subword_config aeB 2 3).2.2 (by decide) (by decide) (by decide)).mpr
    ⟨2, 0, by decide, by decide, ⟨by decide, by decide, by decide⟩⟩

/-- C7: over any successful sequence of `add` and `threshold` operations,
`n_tokens` grows by exactly the number of `add` calls (prune never changes
it), and a fresh vocabulary starts at `n_tokens = 0`, so after N total adds
`n_tokens = N`. -/
theorem claim7_token_count :
    (∀ (ops : List Op) (v v' : Vocabulary), runOps v ops = some v' →
      v'.n_tokens = v.n_tokens + countAdds ops) ∧
    (∀ vs mn mx b, (Vocabulary.new vs mn mx b).n_tokens = 0) :=
  ⟨runOps_n_tokens, fun _ _ _ _ => rfl⟩

/-- C7 witness: two adds of "foo", a prune, and an add of "bar" leave
`n_tokens = 3`. -/
theorem claim7_witness :
    ∃ v', runOps (Vocabulary.new 5 2 3 10)
        [Op.addOp fooB, Op.addOp fooB, Op.pruneOp 0 0, Op.addOp barB] = some v' ∧
      v'.n_tokens = 3 := by
  cases hr : runOps (Vocabulary.new 5 2 3 10)
      [Op.addOp fooB, Op.addOp fooB, Op.pruneOp 0 0, Op.addOp barB] with
  | none => exact absurd hr (by decide)
  | some v' =>
    have h := claim7_token_count.1 _ _ _ hr
    refine ⟨v', rfl, ?_⟩
    rw [h]
    rfl

/-- C8: whenever the table has at least one empty slot, the probe loop of
slot lookup terminates (fuel `vocab_size` suffices and a slot is returned). -/
theorem claim8_termination (v : Vocabulary) (w : List Nat)
    (hempty : ∃ s, s < v.vocab_size ∧ v.word_to_index.getD s 0 = -1) :
    ∃ slot, hash_lookup v w = some slot := by
  obtain ⟨d, _, hres, _, _⟩ := hash_lookup_found v w hempty
  exact ⟨probeSlot v w d, hres⟩

/-- C8 witness: lookup of the absent token "biff" terminates on the fixture,
which has empty slot 0. -/
theorem claim8_witness : ∃ slot, hash_lookup testVocab biffB = some slot :=
  claim8_termination testVocab biffB ⟨0, by decide, by decide⟩

/-- C9: every vocabulary built by `Vocabulary::new` has its label marker
fixed to the bytes of `"__label__"`; no constructor parameter sets it and
neither `add` nor `threshold` changes it; each newly inserted entry is
classified by the byte-prefix test `get_type` against that marker. -/
theorem claim9_label_fixed :
    (∀ vs mn mx b, (Vocabulary.new vs mn mx b).label_pre = labelMarker) ∧
    (∀ v w v', add v w = some v' → v'.label_pre = v.label_pre) ∧
    (∀ v wt lt v', threshold v wt lt = some v' → v'.label_pre = v.label_pre) ∧
    (∀ v w v' s, hash_lookup v w = some s → add v w = some v' →
      v.word_to_index.getD s 0 = -1 →
      (v'.words.getD v.words.length defaultEntry).entry_type = get_type w v.label_pre) := by
  refine ⟨fun _ _ _ _ => rfl, ?_, ?_, ?_⟩
  · intro v w v' hadd
    exact (add_frame hadd).2.1
  · intro v wt lt v' ht
    exact (threshold_some ht).2.2.2.1
  · intro v w v' s hs hadd hempt
    rcases add_some_cases hs hadd with ⟨_, we, hne, rfl⟩ | ⟨hocc, _⟩
    · obtain ⟨hword, hty, _⟩ := newEntryFor_some hne
      show ((v.words ++ [we]).getD v.words.length defaultEntry).entry_type = _
      rw [getD_append_length]
      exact hty
    · exact absurd hempt hocc

/-- C9 witness: the constructor's marker at concrete parameters, and `add`
leaving the fixture's marker unchanged. -/
theorem claim9_witness :
    (Vocabulary.new 5 2 3 10).label_pre = labelMarker ∧
    ∃ v', add testVocab biffB = some v' ∧ v'.label_pre = testVocab.label_pre := by
  refine ⟨claim9_label_fixed.1 5 2 3 10, ?_⟩
  cases hadd : add testVocab biffB with
  | none => exact absurd hadd (by decide)
  | some v' => exact ⟨v', rfl, claim9_label_fixed.2.1 testVocab biffB v' hadd⟩

/-- C10: the structural invariant — entry count equals the `size` counter
and every non-sentinel slot value is a non-negative in-bounds entry index,
so the entry dereference during lookup is in bounds — holds for a fresh
vocabulary and is preserved by every successful `add` and `threshold`. -/
theorem claim10_safety :
    (∀ vs mn mx b, Inv (Vocabulary.new vs mn mx b)) ∧
    (∀ v w v', Inv v → add v w = some v' → Inv v') ∧
    (∀ v wt lt v', threshold v wt lt = some v' → Inv v') := by
  refine ⟨inv_new, ?_, ?_⟩
  · intro v w v' hinv hadd
    exact add_inv hinv hadd
  · intro v wt lt v' ht
    exact (threshold_some ht).2.2.2.2.2

/-- C10 witness: the fixture satisfies the invariant and still does after
adding "biff". -/
theorem claim10_witness :
    Inv testVocab ∧ ∃ v', add testVocab biffB = some v' ∧ Inv v' := by
  refine ⟨by decide, ?_⟩
  cases hadd : add testVocab biffB with
  | none => exact absurd hadd (by decide)
  | some v' => exact ⟨v', rfl, claim10_safety.2.1 testVocab biffB v' (by decide) hadd⟩

end RustText
